import Mathlib

/-!
Verification of the cudf strings repeat transform
(`cpp/include/cudf/strings/repeat_strings.hpp`).

The public header declares three entry points:
  * `repeat_string  (string_scalar, size_type)            -> string_scalar`
  * `repeat_strings (strings_column_view, size_type)      -> column`
  * `repeat_strings (strings_column_view, column_view)    -> column`
The implementation file is not part of the sources provided, so the
behaviour of each entry point is modelled from the header's documented
contract and the specification (SizeCalculator, OffsetBuilder,
RepeatWriter, ValidityPropagator, RepeatEngine).

Machine integers: `size_type` is a signed 32-bit integer; sizes are
modelled as unbounded `Nat`/`Int` with explicit comparison against
`maxSizeType = 2^31 - 1`, mirroring the required widened-arithmetic
overflow check (`input.size() * repeat_times > max of size_type`).
-/

namespace CudfRepeat

/-- Maximum value representable by cudf `size_type` (signed 32-bit). -/
def maxSizeType : Int := 2147483647

/-- The C++ exception types through which failures surface. -/
inductive CppExceptionType where
  | logic_error
  | overflow_error
deriving DecidableEq, Repr

/-- Modelled from the spec: the error taxonomy of §7.  `lengthMismatch`
and `typeError` are the two validation failures of the per-row-count
entry point; `overflow` is the size-overflow failure. -/
inductive CudfError where
  | lengthMismatch
  | typeError
  | overflow
deriving DecidableEq, Repr

/-- The C++ exception type each failure surfaces as: the header declares
`@throw cudf::logic_error` for both validation failures of the per-row
variant and `@throw std::overflow_error` for the scalar overflow. -/
def CudfError.cppType : CudfError → CppExceptionType
  | .lengthMismatch => .logic_error
  | .typeError => .logic_error
  | .overflow => .overflow_error

/-- A `cudf::string_scalar`: a validity flag and the string's bytes. -/
structure StringScalar where
  valid : Bool
  value : List Nat
deriving DecidableEq, Repr

/-- One row of a strings column: validity flag and the row's bytes. -/
structure StringRow where
  valid : Bool
  bytes : List Nat
deriving DecidableEq, Repr

/-- `bytes` concatenated `n` times. -/
def repeatBytes (bytes : List Nat) : Nat → List Nat
  | 0 => []
  | n + 1 => bytes ++ repeatBytes bytes n

/-- Modelled from the spec: `repeat_string` (scalar entry point, header
lines 32–61; the `.cu` implementation is not in the provided sources).
An invalid input returns an invalid scalar unconditionally; a
non-positive count returns a valid empty scalar; otherwise the overflow
check `input.size() * repeat_times > max of size_type` is performed in
widened (unbounded) arithmetic before producing the repeated content. -/
def repeat_string (input : StringScalar) (repeat_times : Int) :
    Except CudfError StringScalar :=
  if input.valid = false then .ok ⟨false, []⟩
  else if repeat_times ≤ 0 then .ok ⟨true, []⟩
  else if maxSizeType < (input.value.length : Int) * repeat_times then
    .error .overflow
  else .ok ⟨true, repeatBytes input.value repeat_times.toNat⟩

/-- Element type of the per-row `repeat_times` column (`column_view`). -/
inductive DType where
  | int8 | int16 | int32 | int64
  | uint8 | uint16 | uint32 | uint64
  | float32 | float64 | boolean | string
deriving DecidableEq, Repr

/-- Whether a `DType` is an integer type (the per-row entry point
requires this of its `repeat_times` column). -/
def DType.isInteger : DType → Bool
  | .int8 | .int16 | .int32 | .int64 => true
  | .uint8 | .uint16 | .uint32 | .uint64 => true
  | _ => false

/-- The per-row `repeat_times` column: its element type and its rows,
each row either a valid integer value or null. -/
structure RepeatTimesColumn where
  dtype : DType
  rows : List (Option Int)
deriving DecidableEq, Repr

/-- The physical layout of an output strings column: offsets, one
contiguous byte buffer, and a validity bitmap. -/
structure StringsColumn where
  offsets : List Nat
  chars : List Nat
  validity : List Bool
deriving DecidableEq, Repr

/-- Offsets as the exclusive prefix sum of the per-row sizes, starting
from `acc`; for `n` sizes it yields `n + 1` offsets. -/
def scanOffsets (acc : Nat) : List Nat → List Nat
  | [] => [acc]
  | s :: rest => acc :: scanOffsets (acc + s) rest

/-- Modelled from the spec: SizeCalculator / RepeatWriter fused at the
row level — the bytes one output row holds, given the input row and its
effective repeat count (`none` = null count row). A null input row or a
null count row contributes no bytes; a non-positive count yields the
empty string; otherwise the input bytes repeated `r` times. -/
def rowPiece (row : StringRow) (cnt : Option Int) : List Nat :=
  if row.valid = false then []
  else
    match cnt with
    | none => []
    | some r => if 0 < r then repeatBytes row.bytes r.toNat else []

/-- Modelled from the spec: ValidityPropagator at the row level —
output row is valid iff the input row is valid and the count row is
valid. -/
def rowValid (row : StringRow) (cnt : Option Int) : Bool :=
  row.valid && cnt.isSome

/-- Assemble the output column from the per-row byte pieces and the
per-row validity: offsets are the exclusive prefix sum of the piece
lengths and the byte buffer is their concatenation. -/
def buildColumn (pieces : List (List Nat)) (validity : List Bool) :
    StringsColumn :=
  { offsets := scanOffsets 0 (pieces.map List.length)
    chars := pieces.flatten
    validity := validity }

/-- Total output size in bytes, computed in widened (unbounded)
arithmetic before any allocation. -/
def totalSize (pieces : List (List Nat)) : Nat :=
  (pieces.map List.length).sum

/-- Modelled from the spec: `repeat_strings` with a uniform count
(header lines 63–90; the `.cu` implementation is not in the provided
sources). Null rows propagate; overflow of the total output size over
`maxSizeType` aborts the whole operation before allocation. -/
def repeat_strings_uniform (input : List StringRow) (repeat_times : Int) :
    Except CudfError StringsColumn :=
  let pieces := input.map (fun row => rowPiece row (some repeat_times))
  if maxSizeType < (totalSize pieces : Int) then .error .overflow
  else .ok (buildColumn pieces (input.map StringRow.valid))

/-- Modelled from the spec: `repeat_strings` with a per-row count column
(header lines 92–125; the `.cu` implementation is not in the provided
sources). The count column must be of an integer type and of the same
length as the input — both checked before any row processing; then null
rows propagate (from either side) and overflow of the total output size
aborts the whole operation before allocation. -/
def repeat_strings_perRow (input : List StringRow)
    (repeat_times : RepeatTimesColumn) : Except CudfError StringsColumn :=
  if repeat_times.dtype.isInteger = false then .error .typeError
  else if input.length ≠ repeat_times.rows.length then .error .lengthMismatch
  else
    let pairs := input.zip repeat_times.rows
    let pieces := pairs.map (fun p => rowPiece p.1 p.2)
    if maxSizeType < (totalSize pieces : Int) then .error .overflow
    else .ok (buildColumn pieces (pairs.map (fun p => rowValid p.1 p.2)))

/-- The byte span of row `i` in an output column, read back through the
offsets: bytes `[offsets[i], offsets[i+1])` of the buffer. -/
def rowSpan (col : StringsColumn) (i : Nat) : List Nat :=
  (col.chars.drop (col.offsets.getD i 0)).take
    (col.offsets.getD (i + 1) 0 - col.offsets.getD i 0)

theorem repeatBytes_length (bytes : List Nat) (n : Nat) :
    (repeatBytes bytes n).length = bytes.length * n := by
  induction n with
  | zero => simp [repeatBytes]
  | succ k ih =>
      simp [repeatBytes, ih, Nat.mul_succ, Nat.add_comm]

theorem repeatBytes_one (bytes : List Nat) : repeatBytes bytes 1 = bytes := by
  simp [repeatBytes]

theorem scanOffsets_length (l : List Nat) (acc : Nat) :
    (scanOffsets acc l).length = l.length + 1 := by
  induction l generalizing acc with
  | nil => simp [scanOffsets]
  | cons s rest ih => simp [scanOffsets, ih]

theorem scanOffsets_getD (l : List Nat) (acc i : Nat) (h : i ≤ l.length) :
    (scanOffsets acc l).getD i 0 = acc + (l.take i).sum := by
  induction l generalizing acc i with
  | nil =>
      have hi : i = 0 := Nat.le_zero.mp h
      subst hi
      simp [scanOffsets]
  | cons s rest ih =>
      cases i with
      | zero => simp [scanOffsets]
      | succ j =>
          have hj : j ≤ rest.length := by simpa using h
          rw [scanOffsets, List.getD_cons_succ, ih (acc + s) j hj]
          simp only [List.take_succ_cons, List.sum_cons]
          omega

theorem sum_take_succ_getD (l : List Nat) (i : Nat) (h : i < l.length) :
    (l.take (i + 1)).sum = (l.take i).sum + l.getD i 0 := by
  induction l generalizing i with
  | nil => simp at h
  | cons x xs ih =>
      cases i with
      | zero => simp
      | succ j =>
          have hj : j < xs.length := by simpa using h
          simp [List.take_succ_cons, ih j hj]
          omega

theorem getD_map_length (pieces : List (List Nat)) (i : Nat)
    (h : i < pieces.length) :
    (pieces.map List.length).getD i 0 = (pieces.getD i []).length := by
  induction pieces generalizing i with
  | nil => simp at h
  | cons p ps ih =>
      cases i with
      | zero => simp
      | succ j =>
          have hj : j < ps.length := by simpa using h
          simpa using ih j hj

theorem flatten_drop_sum (pieces : List (List Nat)) (i : Nat) :
    pieces.flatten.drop ((pieces.map List.length).take i).sum =
      (pieces.drop i).flatten := by
  induction pieces generalizing i with
  | nil => simp
  | cons p ps ih =>
      cases i with
      | zero => simp
      | succ j =>
          have : (((p :: ps).map List.length).take (j + 1)).sum =
              p.length + ((ps.map List.length).take j).sum := by
            simp [List.take_succ_cons]
          rw [this]
          have hdrop : (p ++ ps.flatten).drop
              (p.length + ((ps.map List.length).take j).sum) =
              ps.flatten.drop ((ps.map List.length).take j).sum := by
            rw [← List.drop_drop, List.drop_left]
          simpa [hdrop] using ih j

theorem rowSpan_buildColumn (pieces : List (List Nat)) (v : List Bool)
    (i : Nat) (h : i < pieces.length) :
    rowSpan (buildColumn pieces v) i = pieces.getD i [] := by
  have hsz : i < (pieces.map List.length).length := by simpa using h
  have hi : (scanOffsets 0 (pieces.map List.length)).getD i 0 =
      ((pieces.map List.length).take i).sum := by
    simpa using scanOffsets_getD (pieces.map List.length) 0 i (Nat.le_of_lt hsz)
  have hi1 : (scanOffsets 0 (pieces.map List.length)).getD (i + 1) 0 =
      ((pieces.map List.length).take i).sum + (pieces.getD i []).length := by
    rw [scanOffsets_getD (pieces.map List.length) 0 (i + 1) hsz,
      sum_take_succ_getD (pieces.map List.length) i hsz,
      getD_map_length pieces i h]
    omega
  have hg : pieces.getD i [] = pieces[i] := List.getD_eq_getElem pieces [] h
  unfold rowSpan buildColumn
  simp only
  rw [hi, hi1, Nat.add_sub_cancel_left, flatten_drop_sum,
    List.drop_eq_getElem_cons h, List.flatten_cons, hg]
  exact List.take_left _ _

theorem rowSpan_buildColumn_getElem? (pieces : List (List Nat))
    (v : List Bool) (i : Nat) (x : List Nat) (hx : pieces[i]? = some x) :
    rowSpan (buildColumn pieces v) i = x := by
  have hlt : i < pieces.length := by
    by_contra hge
    rw [List.getElem?_eq_none (Nat.le_of_not_lt hge)] at hx
    exact Option.noConfusion hx
  have hget : pieces[i] = x := by
    have := List.getElem?_eq_getElem hlt
    rw [this] at hx
    exact Option.some.inj hx
  rw [rowSpan_buildColumn pieces v i hlt, List.getD_eq_getElem pieces [] hlt,
    hget]

theorem zip_getElem? {α β : Type} (l₁ : List α) (l₂ : List β) (i : Nat)
    (x : α) (y : β) (hx : l₁[i]? = some x) (hy : l₂[i]? = some y) :
    (l₁.zip l₂)[i]? = some (x, y) :=
  List.getElem?_zip_eq_some.mpr ⟨hx, hy⟩

theorem repeat_strings_uniform_ok (input : List StringRow) (r : Int)
    (col : StringsColumn)
    (h : repeat_strings_uniform input r = .ok col) :
    col = buildColumn (input.map (fun row => rowPiece row (some r)))
      (input.map StringRow.valid) := by
  simp only [repeat_strings_uniform] at h
  split at h
  · exact absurd h (by simp)
  · exact (Except.ok.inj h).symm

theorem repeat_strings_perRow_ok (input : List StringRow)
    (rt : RepeatTimesColumn) (col : StringsColumn)
    (h : repeat_strings_perRow input rt = .ok col) :
    rt.dtype.isInteger = true ∧ input.length = rt.rows.length ∧
    col = buildColumn ((input.zip rt.rows).map (fun p => rowPiece p.1 p.2))
      ((input.zip rt.rows).map (fun p => rowValid p.1 p.2)) := by
  simp only [repeat_strings_perRow] at h
  split at h
  · exact absurd h (by simp)
  · split at h
    · exact absurd h (by simp)
    · split at h
      · exact absurd h (by simp)
      · refine ⟨?_, ?_, (Except.ok.inj h).symm⟩
        · rename_i h1 _ _
          simpa using h1
        · rename_i h2 _
          exact Decidable.of_not_not h2

theorem validity_map_getElem? (input : List StringRow) (i : Nat)
    (row : StringRow) (hrow : input[i]? = some row) :
    (input.map StringRow.valid)[i]? = some row.valid := by
  rw [List.getElem?_map, hrow]
  rfl

theorem piece_map_getElem? (input : List StringRow) (r : Int) (i : Nat)
    (row : StringRow) (hrow : input[i]? = some row) :
    (input.map (fun row => rowPiece row (some r)))[i]? =
      some (rowPiece row (some r)) := by
  rw [List.getElem?_map, hrow]
  rfl

/-- Claim C1: for every non-null input string of byte length L and every
repeat count r > 0, in each of the three entry points (scalar
`repeat_string`, `repeat_strings` with a uniform count, `repeat_strings`
with a per-row count), the output row is non-null, has byte length
exactly L*r, and its content equals r concatenated copies of the input
bytes, with no padding or separators. -/
theorem claim1_repeat_content :
    (∀ (s : StringScalar) (r : Int), s.valid = true → 0 < r →
        (s.value.length : Int) * r ≤ maxSizeType →
        repeat_string s r = .ok ⟨true, repeatBytes s.value r.toNat⟩ ∧
        (repeatBytes s.value r.toNat).length = s.value.length * r.toNat) ∧
    (∀ (input : List StringRow) (r : Int) (col : StringsColumn) (i : Nat)
        (row : StringRow),
        repeat_strings_uniform input r = .ok col →
        input[i]? = some row → row.valid = true → 0 < r →
        col.validity[i]? = some true ∧
        rowSpan col i = repeatBytes row.bytes r.toNat ∧
        (rowSpan col i).length = row.bytes.length * r.toNat) ∧
    (∀ (input : List StringRow) (rt : RepeatTimesColumn)
        (col : StringsColumn) (i : Nat) (row : StringRow) (r : Int),
        repeat_strings_perRow input rt = .ok col →
        input[i]? = some row → rt.rows[i]? = some (some r) →
        row.valid = true → 0 < r →
        col.validity[i]? = some true ∧
        rowSpan col i = repeatBytes row.bytes r.toNat ∧
        (rowSpan col i).length = row.bytes.length * r.toNat) := by
  refine ⟨?_, ?_, ?_⟩
  · intro s r hv hr hle
    have h1 : ¬ (r ≤ 0) := not_le.mpr hr
    have h2 : ¬ (maxSizeType < (s.value.length : Int) * r) := not_lt.mpr hle
    exact ⟨by simp [repeat_string, hv, h1, h2], repeatBytes_length _ _⟩
  · intro input r col i row h hrow hv hr
    have hcol := repeat_strings_uniform_ok input r col h
    subst hcol
    have hspan := rowSpan_buildColumn_getElem? _ (input.map StringRow.valid)
      i _ (piece_map_getElem? input r i row hrow)
    refine ⟨?_, ?_, ?_⟩
    · have := validity_map_getElem? input i row hrow
      simpa [buildColumn, hv] using this
    · rw [hspan]
      simp [rowPiece, hv, hr]
    · rw [hspan]
      simp [rowPiece, hv, hr, repeatBytes_length]
  · intro input rt col i row r h hrow hcnt hv hr
    obtain ⟨hint, hlen, hcol⟩ := repeat_strings_perRow_ok input rt col h
    subst hcol
    have hzip := zip_getElem? input rt.rows i row (some r) hrow hcnt
    have hpiece : (((input.zip rt.rows)).map
        (fun p => rowPiece p.1 p.2))[i]? = some (rowPiece row (some r)) := by
      rw [List.getElem?_map, hzip]
      rfl
    have hval : (((input.zip rt.rows)).map
        (fun p => rowValid p.1 p.2))[i]? = some (rowValid row (some r)) := by
      rw [List.getElem?_map, hzip]
      rfl
    have hspan := rowSpan_buildColumn_getElem? _
      ((input.zip rt.rows).map (fun p => rowValid p.1 p.2)) i _ hpiece
    refine ⟨?_, ?_, ?_⟩
    · simpa [buildColumn, rowValid, hv] using hval
    · rw [hspan]
      simp [rowPiece, hv, hr]
    · rw [hspan]
      simp [rowPiece, hv, hr, repeatBytes_length]

theorem claim1_repeat_content_witness :
    repeat_string ⟨true, [7, 8]⟩ 3 =
      .ok ⟨true, repeatBytes [7, 8] (Int.toNat 3)⟩ ∧
    (repeatBytes [7, 8] (Int.toNat 3)).length =
      ([7, 8] : List Nat).length * Int.toNat 3 :=
  claim1_repeat_content.1 ⟨true, [7, 8]⟩ 3 rfl (by decide) (by decide)

/-- Claim C2: for both column entry points, output row i is valid iff
input row i is valid and (per-row variant only) count row i is valid; a
null input row yields a null output row for every value or validity of
the count, and a null count row with a non-null input string yields a
null output row. -/
theorem claim2_validity :
    (∀ (input : List StringRow) (r : Int) (col : StringsColumn) (i : Nat)
        (row : StringRow),
        repeat_strings_uniform input r = .ok col →
        input[i]? = some row →
        col.validity[i]? = some row.valid) ∧
    (∀ (input : List StringRow) (rt : RepeatTimesColumn)
        (col : StringsColumn) (i : Nat) (row : StringRow) (cnt : Option Int),
        repeat_strings_perRow input rt = .ok col →
        input[i]? = some row → rt.rows[i]? = some cnt →
        col.validity[i]? = some (row.valid && cnt.isSome)) := by
  constructor
  · intro input r col i row h hrow
    have hcol := repeat_strings_uniform_ok input r col h
    subst hcol
    simpa [buildColumn] using validity_map_getElem? input i row hrow
  · intro input rt col i row cnt h hrow hcnt
    obtain ⟨hint, hlen, hcol⟩ := repeat_strings_perRow_ok input rt col h
    subst hcol
    have hzip := zip_getElem? input rt.rows i row cnt hrow hcnt
    have hval : (((input.zip rt.rows)).map
        (fun p => rowValid p.1 p.2))[i]? = some (rowValid row cnt) := by
      rw [List.getElem?_map, hzip]
      rfl
    simpa [buildColumn, rowValid] using hval

theorem claim2_validity_witness :
    repeat_strings_perRow [⟨true, [1]⟩, ⟨false, [2]⟩]
        ⟨DType.int32, [some 2, some 1]⟩ =
      .ok ⟨[0, 2, 2], [1, 1], [true, false]⟩ ∧
    (⟨[0, 2, 2], [1, 1], [true, false]⟩ : StringsColumn).validity[1]? =
      some false := by
  have hok : repeat_strings_perRow [⟨true, [1]⟩, ⟨false, [2]⟩]
      ⟨DType.int32, [some 2, some 1]⟩ =
      .ok ⟨[0, 2, 2], [1, 1], [true, false]⟩ := rfl
  refine ⟨hok, ?_⟩
  have h := claim2_validity.2 [⟨true, [1]⟩, ⟨false, [2]⟩]
    ⟨DType.int32, [some 2, some 1]⟩ ⟨[0, 2, 2], [1, 1], [true, false]⟩
    1 ⟨false, [2]⟩ (some 1) hok rfl rfl
  exact h

theorem length_le_totalSize (pieces : List (List Nat)) (x : List Nat)
    (hx : x ∈ pieces) : x.length ≤ totalSize pieces :=
  List.single_le_sum (fun y _ => Nat.zero_le y) _
    (List.mem_map_of_mem List.length hx)

/-- Claim C3: every entry point signals the overflow error exactly when
some row's output length L*r, or the total output byte length, strictly
exceeds `maxSizeType` (equality at the maximum is accepted); the check is
made with widened (here: unbounded) arithmetic before any allocation, so
never via wraparound, and on overflow the result is an error carrying no
output. -/
theorem claim3_overflow :
    (∀ (s : StringScalar) (r : Int),
        repeat_string s r = .error .overflow ↔
          s.valid = true ∧ 0 < r ∧
            maxSizeType < (s.value.length : Int) * r) ∧
    (∀ (input : List StringRow) (r : Int),
        repeat_strings_uniform input r = .error .overflow ↔
          (∃ piece ∈ input.map (fun row => rowPiece row (some r)),
              maxSizeType < (piece.length : Int)) ∨
            maxSizeType <
              (totalSize (input.map (fun row => rowPiece row (some r))) :
                Int)) ∧
    (∀ (input : List StringRow) (rt : RepeatTimesColumn),
        rt.dtype.isInteger = true → input.length = rt.rows.length →
        (repeat_strings_perRow input rt = .error .overflow ↔
          (∃ piece ∈ (input.zip rt.rows).map (fun p => rowPiece p.1 p.2),
              maxSizeType < (piece.length : Int)) ∨
            maxSizeType <
              (totalSize ((input.zip rt.rows).map
                (fun p => rowPiece p.1 p.2)) : Int))) := by
  refine ⟨?_, ?_, ?_⟩
  · intro s r
    by_cases hv : s.valid = false
    · simp [repeat_string, hv]
    · have hv' : s.valid = true := by
        revert hv
        cases s.valid <;> simp
      by_cases hr : r ≤ 0
      · have hr' : ¬ (0 : Int) < r := not_lt.mpr hr
        simp [repeat_string, hv', hr, hr']
      · have hr' : (0 : Int) < r := not_le.mp hr
        by_cases ho : maxSizeType < (s.value.length : Int) * r
        · simp [repeat_string, hv', hr, hr', ho]
        · simp [repeat_string, hv', hr, ho]
  · intro input r
    by_cases hc : maxSizeType <
        (totalSize (input.map (fun row => rowPiece row (some r))) : Int)
    · constructor
      · intro _
        exact Or.inr hc
      · intro _
        simp [repeat_strings_uniform, hc]
    · constructor
      · intro h
        exact absurd h (by simp [repeat_strings_uniform, hc])
      · intro h
        exfalso
        rcases h with ⟨piece, hmem, hlt⟩ | hlt
        · exact hc (lt_of_lt_of_le hlt
            (by exact_mod_cast length_le_totalSize _ _ hmem))
        · exact hc hlt
  · intro input rt hint hlen
    by_cases hc : maxSizeType <
        (totalSize ((input.zip rt.rows).map (fun p => rowPiece p.1 p.2)) :
          Int)
    · constructor
      · intro _
        exact Or.inr hc
      · intro _
        simp [repeat_strings_perRow, hint, hlen, hc]
    · constructor
      · intro h
        exact absurd h (by simp [repeat_strings_perRow, hint, hlen, hc])
      · intro h
        exfalso
        rcases h with ⟨piece, hmem, hlt⟩ | hlt
        · exact hc (lt_of_lt_of_le hlt
            (by exact_mod_cast length_le_totalSize _ _ hmem))
        · exact hc hlt

theorem claim3_overflow_witness :
    repeat_strings_perRow [⟨true, [1]⟩] ⟨DType.int64, [some 3]⟩ =
        .error .overflow ↔
      (∃ piece ∈ (([⟨true, [1]⟩] : List StringRow).zip
          ([some 3] : List (Option Int))).map (fun p => rowPiece p.1 p.2),
          maxSizeType < (piece.length : Int)) ∨
        maxSizeType <
          (totalSize ((([⟨true, [1]⟩] : List StringRow).zip
            ([some 3] : List (Option Int))).map
              (fun p => rowPiece p.1 p.2)) : Int) :=
  claim3_overflow.2.2 [⟨true, [1]⟩] ⟨DType.int64, [some 3]⟩ rfl rfl

/-- Claim C4: for every non-null input string and every repeat count
r ≤ 0 (including 0 and negative values), in each entry point the output
is a valid, non-null string of length zero — never a null. -/
theorem claim4_nonpositive_count :
    (∀ (s : StringScalar) (r : Int), s.valid = true → r ≤ 0 →
        repeat_string s r = .ok ⟨true, []⟩) ∧
    (∀ (input : List StringRow) (r : Int) (col : StringsColumn) (i : Nat)
        (row : StringRow),
        repeat_strings_uniform input r = .ok col →
        input[i]? = some row → row.valid = true → r ≤ 0 →
        col.validity[i]? = some true ∧ rowSpan col i = []) ∧
    (∀ (input : List StringRow) (rt : RepeatTimesColumn)
        (col : StringsColumn) (i : Nat) (row : StringRow) (c : Int),
        repeat_strings_perRow input rt = .ok col →
        input[i]? = some row → rt.rows[i]? = some (some c) →
        row.valid = true → c ≤ 0 →
        col.validity[i]? = some true ∧ rowSpan col i = []) := by
  refine ⟨?_, ?_, ?_⟩
  · intro s r hv hr
    simp [repeat_string, hv, hr]
  · intro input r col i row h hrow hv hr
    have hcol := repeat_strings_uniform_ok input r col h
    subst hcol
    have hspan := rowSpan_buildColumn_getElem? _ (input.map StringRow.valid)
      i _ (piece_map_getElem? input r i row hrow)
    refine ⟨?_, ?_⟩
    · have := validity_map_getElem? input i row hrow
      simpa [buildColumn, hv] using this
    · rw [hspan]
      simp [rowPiece, hv, not_lt.mpr hr]
  · intro input rt col i row c h hrow hcnt hv hr
    obtain ⟨hint, hlen, hcol⟩ := repeat_strings_perRow_ok input rt col h
    subst hcol
    have hzip := zip_getElem? input rt.rows i row (some c) hrow hcnt
    have hpiece : (((input.zip rt.rows)).map
        (fun p => rowPiece p.1 p.2))[i]? = some (rowPiece row (some c)) := by
      rw [List.getElem?_map, hzip]
      rfl
    have hval : (((input.zip rt.rows)).map
        (fun p => rowValid p.1 p.2))[i]? = some (rowValid row (some c)) := by
      rw [List.getElem?_map, hzip]
      rfl
    refine ⟨?_, ?_⟩
    · simpa [buildColumn, rowValid, hv] using hval
    · rw [rowSpan_buildColumn_getElem? _
        ((input.zip rt.rows).map (fun p => rowValid p.1 p.2)) i _ hpiece]
      simp [rowPiece, hv, not_lt.mpr hr]

theorem claim4_nonpositive_count_witness :
    repeat_string ⟨true, [5, 6]⟩ (-2) = .ok ⟨true, []⟩ :=
  claim4_nonpositive_count.1 ⟨true, [5, 6]⟩ (-2) rfl (by decide)

/-- Claim C5: for every invalid (null) input scalar and every value of
`repeat_times`, `repeat_string` returns an invalid output scalar; the
repeat count is ignored (the result does not depend on it) and no
overflow check or other failure occurs on this path. -/
theorem claim5_invalid_scalar :
    ∀ (s : StringScalar) (r r' : Int), s.valid = false →
      repeat_string s r = .ok ⟨false, []⟩ ∧
      repeat_string s r = repeat_string s r' := by
  intro s r r' hv
  constructor <;> simp [repeat_string, hv]

theorem claim5_invalid_scalar_witness :
    repeat_string ⟨false, [9]⟩ 5 = .ok ⟨false, []⟩ ∧
    repeat_string ⟨false, [9]⟩ 5 = repeat_string ⟨false, [9]⟩ (-7) :=
  claim5_invalid_scalar ⟨false, [9]⟩ 5 (-7) rfl

theorem buildColumn_offsets_spec (pieces : List (List Nat)) (v : List Bool) :
    (buildColumn pieces v).offsets.length = pieces.length + 1 ∧
    (buildColumn pieces v).offsets.getD 0 0 = 0 ∧
    (buildColumn pieces v).offsets.getD pieces.length 0 =
      (buildColumn pieces v).chars.length ∧
    (∀ i, i < pieces.length →
        (buildColumn pieces v).offsets.getD i 0 ≤
          (buildColumn pieces v).offsets.getD (i + 1) 0) ∧
    (∀ i, i ≤ pieces.length →
        (buildColumn pieces v).offsets.getD i 0 =
          ((pieces.map List.length).take i).sum) := by
  have hform : ∀ i, i ≤ pieces.length →
      (buildColumn pieces v).offsets.getD i 0 =
        ((pieces.map List.length).take i).sum := by
    intro i hi
    have : i ≤ (pieces.map List.length).length := by simpa using hi
    simpa [buildColumn] using
      scanOffsets_getD (pieces.map List.length) 0 i this
  refine ⟨?_, ?_, ?_, ?_, hform⟩
  · simp [buildColumn, scanOffsets_length]
  · simpa using hform 0 (Nat.zero_le _)
  · rw [hform pieces.length (Nat.le_refl _)]
    have : (pieces.map List.length).take pieces.length = pieces.map List.length := by
      apply List.take_of_length_le
      simp
    rw [this]
    simp [buildColumn, List.length_flatten]
  · intro i hi
    have hi' : i < (pieces.map List.length).length := by simpa using hi
    rw [hform i (Nat.le_of_lt hi), hform (i + 1) hi,
      sum_take_succ_getD (pieces.map List.length) i hi']
    exact Nat.le_add_right _ _

/-- Claim C6: the per-row-count entry point fails with the
length-mismatch error whenever the count column's length differs from
the input column's length, and with the type error whenever the count
column's element type is not an integer type; both checks precede any
row processing or allocation (an error result carries no output), and
these two errors arise only from those two conditions. -/
theorem claim6_perRow_validation :
    (∀ (input : List StringRow) (rt : RepeatTimesColumn),
        rt.dtype.isInteger = false →
        repeat_strings_perRow input rt = .error .typeError) ∧
    (∀ (input : List StringRow) (rt : RepeatTimesColumn),
        rt.dtype.isInteger = true → input.length ≠ rt.rows.length →
        repeat_strings_perRow input rt = .error .lengthMismatch) ∧
    (∀ (input : List StringRow) (rt : RepeatTimesColumn) (e : CudfError),
        repeat_strings_perRow input rt = .error e →
        (e = .typeError ∨ e = .lengthMismatch) →
        rt.dtype.isInteger = false ∨ input.length ≠ rt.rows.length) := by
  refine ⟨?_, ?_, ?_⟩
  · intro input rt h
    simp [repeat_strings_perRow, h]
  · intro input rt h1 h2
    simp [repeat_strings_perRow, h1, h2]
  · intro input rt e h he
    by_contra hcon
    push_neg at hcon
    obtain ⟨hint', hlen⟩ := hcon
    have hint : rt.dtype.isInteger = true := by
      revert hint'
      cases rt.dtype.isInteger <;> simp
    simp only [repeat_strings_perRow, hint, hlen] at h
    simp only [Bool.true_eq_false, if_false, ne_eq, not_true_eq_false] at h
    split at h
    · have : CudfError.overflow = e := Except.error.inj h
      subst this
      rcases he with he | he <;> exact CudfError.noConfusion he
    · exact Except.noConfusion h

theorem claim6_perRow_validation_witness :
    repeat_strings_perRow [⟨true, [1]⟩] ⟨DType.int32, []⟩ =
      .error .lengthMismatch :=
  claim6_perRow_validation.2.1 [⟨true, [1]⟩] ⟨DType.int32, []⟩ rfl
    (by decide)

/-- Claim C7: for every successful invocation of either column entry
point, the resulting offsets sequence has exactly N+1 entries for an
N-row input, starts at 0, is non-decreasing, ends at the byte buffer's
length, and equals the exclusive prefix sum of the per-row output
lengths. -/
theorem claim7_offsets_invariant :
    (∀ (input : List StringRow) (r : Int) (col : StringsColumn),
        repeat_strings_uniform input r = .ok col →
        col.offsets.length = input.length + 1 ∧
        col.offsets.getD 0 0 = 0 ∧
        col.offsets.getD input.length 0 = col.chars.length ∧
        (∀ i, i < input.length →
            col.offsets.getD i 0 ≤ col.offsets.getD (i + 1) 0) ∧
        (∀ i, i ≤ input.length →
            col.offsets.getD i 0 =
              (((input.map (fun row => rowPiece row (some r))).map
                List.length).take i).sum)) ∧
    (∀ (input : List StringRow) (rt : RepeatTimesColumn)
        (col : StringsColumn),
        repeat_strings_perRow input rt = .ok col →
        col.offsets.length = input.length + 1 ∧
        col.offsets.getD 0 0 = 0 ∧
        col.offsets.getD input.length 0 = col.chars.length ∧
        (∀ i, i < input.length →
            col.offsets.getD i 0 ≤ col.offsets.getD (i + 1) 0) ∧
        (∀ i, i ≤ input.length →
            col.offsets.getD i 0 =
              ((((input.zip rt.rows).map (fun p => rowPiece p.1 p.2)).map
                List.length).take i).sum)) := by
  constructor
  · intro input r col h
    have hcol := repeat_strings_uniform_ok input r col h
    subst hcol
    have hspec := buildColumn_offsets_spec
      (input.map (fun row => rowPiece row (some r)))
      (input.map StringRow.valid)
    have hlen : (input.map (fun row => rowPiece row (some r))).length =
        input.length := List.length_map _ _
    rw [hlen] at hspec
    exact hspec
  · intro input rt col h
    obtain ⟨hint, hlencols, hcol⟩ := repeat_strings_perRow_ok input rt col h
    subst hcol
    have hspec := buildColumn_offsets_spec
      ((input.zip rt.rows).map (fun p => rowPiece p.1 p.2))
      ((input.zip rt.rows).map (fun p => rowValid p.1 p.2))
    have hlen : ((input.zip rt.rows).map (fun p => rowPiece p.1 p.2)).length =
        input.length := by
      rw [List.length_map, List.length_zip, hlencols, Nat.min_self]
    rw [hlen] at hspec
    exact hspec

theorem claim7_offsets_invariant_witness :
    (⟨[0, 2, 2], [3, 3], [true, false]⟩ : StringsColumn).offsets.getD 0 0 =
      0 ∧
    (⟨[0, 2, 2], [3, 3], [true, false]⟩ : StringsColumn).offsets.getD 1 0 =
      ((([⟨true, [3]⟩, ⟨false, []⟩].map
        (fun row => rowPiece row (some (2 : Int)))).map
          List.length).take 1).sum := by
  have h := claim7_offsets_invariant.1 [⟨true, [3]⟩, ⟨false, []⟩] 2
    ⟨[0, 2, 2], [3, 3], [true, false]⟩ rfl
  exact ⟨h.2.1, h.2.2.2.2 1 (by decide)⟩

/-- Claim C8: repeating with count 1 is the identity: the scalar entry
point returns the input string unchanged, and for every row of either
column entry point an effective count of 1 reproduces the input row's
bytes and validity. -/
theorem claim8_repeat_one_identity :
    (∀ (s : StringScalar), s.valid = true →
        (s.value.length : Int) ≤ maxSizeType →
        repeat_string s 1 = .ok ⟨true, s.value⟩) ∧
    (∀ (input : List StringRow) (col : StringsColumn) (i : Nat)
        (row : StringRow),
        repeat_strings_uniform input 1 = .ok col →
        input[i]? = some row →
        col.validity[i]? = some row.valid ∧
        (row.valid = true → rowSpan col i = row.bytes)) ∧
    (∀ (input : List StringRow) (rt : RepeatTimesColumn)
        (col : StringsColumn) (i : Nat) (row : StringRow),
        repeat_strings_perRow input rt = .ok col →
        input[i]? = some row → rt.rows[i]? = some (some 1) →
        col.validity[i]? = some row.valid ∧
        (row.valid = true → rowSpan col i = row.bytes)) := by
  refine ⟨?_, ?_, ?_⟩
  · intro s hv hle
    have h1 : ¬ ((1 : Int) ≤ 0) := by decide
    have h2 : ¬ maxSizeType < (s.value.length : Int) * 1 := by
      rw [mul_one]
      exact not_lt.mpr hle
    simp [repeat_string, hv, h1, h2, repeatBytes]
    exact hle
  · intro input col i row h hrow
    have hcol := repeat_strings_uniform_ok input 1 col h
    subst hcol
    refine ⟨?_, ?_⟩
    · simpa [buildColumn] using validity_map_getElem? input i row hrow
    · intro hv
      rw [rowSpan_buildColumn_getElem? _ (input.map StringRow.valid) i _
        (piece_map_getElem? input 1 i row hrow)]
      simp [rowPiece, hv, repeatBytes]
  · intro input rt col i row h hrow hcnt
    obtain ⟨hint, hlen, hcol⟩ := repeat_strings_perRow_ok input rt col h
    subst hcol
    have hzip := zip_getElem? input rt.rows i row (some 1) hrow hcnt
    have hpiece : (((input.zip rt.rows)).map
        (fun p => rowPiece p.1 p.2))[i]? = some (rowPiece row (some 1)) := by
      rw [List.getElem?_map, hzip]
      rfl
    have hval : (((input.zip rt.rows)).map
        (fun p => rowValid p.1 p.2))[i]? = some (rowValid row (some 1)) := by
      rw [List.getElem?_map, hzip]
      rfl
    refine ⟨?_, ?_⟩
    · simpa [buildColumn, rowValid] using hval
    · intro hv
      rw [rowSpan_buildColumn_getElem? _
        ((input.zip rt.rows).map (fun p => rowValid p.1 p.2)) i _ hpiece]
      simp [rowPiece, hv, repeatBytes]

theorem claim8_repeat_one_identity_witness :
    repeat_string ⟨true, [4, 5]⟩ 1 = .ok ⟨true, [4, 5]⟩ :=
  claim8_repeat_one_identity.1 ⟨true, [4, 5]⟩ rfl (by decide)

/-- Claim C10: the length-mismatch and non-integer-type failures of the
per-row entry point both surface as the same C++ exception type
(`cudf::logic_error`), while the scalar overflow failure surfaces as
`std::overflow_error` — a different type — so the two validation
failures cannot be told apart by exception type alone. -/
theorem claim10_exception_types :
    (∀ (input : List StringRow) (rt : RepeatTimesColumn) (e : CudfError),
        repeat_strings_perRow input rt = .error e → e ≠ .overflow →
        CudfError.cppType e = .logic_error) ∧
    (∀ (s : StringScalar) (r : Int) (e : CudfError),
        repeat_string s r = .error e →
        CudfError.cppType e = .overflow_error) ∧
    CudfError.cppType .lengthMismatch = CudfError.cppType .typeError ∧
    CudfError.cppType .overflow ≠ CudfError.cppType .lengthMismatch := by
  refine ⟨?_, ?_, rfl, by decide⟩
  · intro input rt e h hne
    simp only [repeat_strings_perRow] at h
    split at h
    · rw [← Except.error.inj h]
      rfl
    · split at h
      · rw [← Except.error.inj h]
        rfl
      · split at h
        · exact absurd (Except.error.inj h).symm hne
        · exact Except.noConfusion h
  · intro s r e h
    simp only [repeat_string] at h
    split at h
    · exact Except.noConfusion h
    · split at h
      · exact Except.noConfusion h
      · split at h
        · rw [← Except.error.inj h]
          rfl
        · exact Except.noConfusion h

theorem claim10_exception_types_witness :
    repeat_strings_perRow [⟨true, [1]⟩] ⟨DType.float32, [some 1]⟩ =
      .error .typeError ∧
    CudfError.cppType .typeError = .logic_error :=
  ⟨rfl, claim10_exception_types.1 [⟨true, [1]⟩]
    ⟨DType.float32, [some 1]⟩ .typeError rfl (by decide)⟩

end CudfRepeat
